import Mathlib

/-!
Verification development for `scripts/generate_llm_tags.py`, a single-pass
pipeline that reads a blog post file consisting of a YAML front-matter block
followed by a body, asks an external service for a tag list, and rewrites the
front matter with the reserved key `llm_tags`.

The embedding works on `List Char` (Python `str` as a character sequence).
The YAML layer (`yaml.safe_load` / `yaml.dump(..., sort_keys=False)`) is an
external library; it is modelled here restricted to the shapes this script
actually produces and consumes: flat mappings from plain-scalar keys to plain
scalars, `null`, and block sequences of plain scalars (the shape `llm_tags`
takes).  Strings that PyYAML would quote on output (newlines, a leading
`---`, the literals `null` and `[]`, keys containing `:`) are outside the
model and are excluded by the well-formedness predicates below.

The regex `re.search(r'^---\n(.*?)\n---', content, re.DOTALL | re.MULTILINE)`
is embedded directly: with MULTILINE the anchor `^` matches at index 0 and
right after every newline, the search returns the leftmost such position at
which the whole pattern completes, and the lazy group takes the shortest
text ending at the first following occurrence of `"\n---"`.
-/

/-- Value universe for the front-matter mapping: a plain scalar string, the
YAML null, or a block sequence of strings (the form taken by `llm_tags`). -/
inductive YVal where
  | str : List Char → YVal
  | null : YVal
  | strList : List (List Char) → YVal
deriving DecidableEq, Repr

/-- Front matter as an insertion-ordered association list, the shape a Python
`dict` parsed by `yaml.safe_load` presents to this script. -/
abbrev Mapping := List (List Char × YVal)

/-- Constant `GENERATED_TAGS_KEY = 'llm_tags'` from the script. -/
def GENERATED_TAGS_KEY : List Char := "llm_tags".toList

/-- Boolean prefix test: `leadsWith pat l` holds when `pat` is an initial
segment of `l`. -/
def leadsWith : List Char → List Char → Bool
  | [], _ => true
  | _ :: _, [] => false
  | p :: ps, c :: cs => p == c && leadsWith ps cs

/-- The opening delimiter text `"---\n"` of the front-matter regex. -/
def openMark : List Char := ['-', '-', '-', '\n']

/-- The closing delimiter text `"\n---"` of the front-matter regex. -/
def closeMark : List Char := ['\n', '-', '-', '-']

/-- Three dashes, the bare delimiter line. -/
def dashes3 : List Char := ['-', '-', '-']

/-- The two characters `"- "` opening a YAML block-sequence item line. -/
def itemMark : List Char := ['-', ' ']

/-- Index of the first position of `l` at which `pat` starts, if any. -/
def firstIdxOf (pat : List Char) : List Char → Option Nat
  | [] => if leadsWith pat [] then some 0 else none
  | c :: rest => if leadsWith pat (c :: rest) then some 0 else (firstIdxOf pat rest).map (· + 1)

/-- Scan of `re.search(r'^---\n(.*?)\n---', content, re.DOTALL | re.MULTILINE)`:
`idx` is the absolute index of the head of the remaining text and `atLS`
records whether that position is a line start (index 0 or preceded by a
newline, the positions MULTILINE `^` accepts).  At each line start where
`"---\n"` matches, the lazy group ends at the first later `"\n---"`; on
success the pair is the group text and `match.end()`.  Failure at a position
moves the scan one character right, as the regex engine does. -/
def fmSearchAux : List Char → Nat → Bool → Option (List Char × Nat)
  | [], _, _ => none
  | c :: rest, idx, atLS =>
    if atLS && leadsWith openMark (c :: rest) then
      match firstIdxOf closeMark ((c :: rest).drop 4) with
      | some q => some (((c :: rest).drop 4).take q, idx + 8 + q)
      | none => fmSearchAux rest (idx + 1) (c == '\n')
    else fmSearchAux rest (idx + 1) (c == '\n')

/-- The whole-document front-matter search, started at index 0 (a line start). -/
def fmSearch (content : List Char) : Option (List Char × Nat) :=
  fmSearchAux content 0 true

/-- Python whitespace as stripped by `str.strip()`. -/
def isPySpace (c : Char) : Bool :=
  c == ' ' || c == '\t' || c == '\n' || c == '\r' || c == '\x0b' || c == '\x0c'

/-- Model of Python `str.strip()`: drop whitespace from both ends. -/
def pyStrip (s : List Char) : List Char :=
  ((s.dropWhile isPySpace).reverse.dropWhile isPySpace).reverse

/-- Model of `.replace('"', '').replace("'", '')`: delete every quote
character. -/
def removeQuotes (s : List Char) : List Char :=
  s.filter (fun c => !(c == '"' || c == '\''))

/-- Model of Python `str.split(sep)` for a one-character separator: split at
every occurrence, keeping empty pieces, `[""]` on empty input. -/
def splitOnChar (sep : Char) : List Char → List (List Char)
  | [] => [[]]
  | a :: rest =>
    if a = sep then [] :: splitOnChar sep rest
    else
      match splitOnChar sep rest with
      | [] => [[a]]
      | h :: t => (a :: h) :: t

/-- Response-text cleanup of `call_llm_for_tags` (lines 54-64): strip the
text, delete quote characters, split on commas, strip each piece, keep the
non-empty pieces; an empty result is the failure value `None`, never `[]`. -/
def parseTags (t : List Char) : Option (List (List Char)) :=
  let cleaned := removeQuotes (pyStrip t)
  let tags := ((splitOnChar ',' cleaned).map pyStrip).filter (fun s => !s.isEmpty)
  if tags.isEmpty then none else some tags

/-- Modelled from the spec: the response is split on commas, each piece is
stripped of quote characters and trimmed, and empty pieces are discarded.
Used as the specification-side description that `parseTags` is compared
against. -/
def specClean (t : List Char) : List (List Char) :=
  ((splitOnChar ',' (pyStrip t)).map (fun p => pyStrip (removeQuotes p))).filter
    (fun s => !s.isEmpty)

/-- Generic flattening of a list of lists. -/
def catL {α : Type} : List (List α) → List α
  | [] => []
  | l :: ls => l ++ catL ls

/-- Serialized lines of one mapping entry, as `yaml.dump` with
`sort_keys=False` emits them for this value universe: `k: v`, `k: null`,
`k: []`, or `k:` followed by `- x` item lines. -/
def entryLines : List Char × YVal → List (List Char)
  | (k, YVal.str v) => [k ++ ':' :: ' ' :: v]
  | (k, YVal.null) => [k ++ ':' :: ' ' :: "null".toList]
  | (k, YVal.strList []) => [k ++ ':' :: ' ' :: "[]".toList]
  | (k, YVal.strList (x :: xs)) => (k ++ [':']) :: (x :: xs).map (fun i => '-' :: ' ' :: i)

/-- All serialized lines of a mapping, in insertion order. -/
def dumpLines (m : Mapping) : List (List Char) :=
  catL (m.map entryLines)

/-- Join lines, terminating each with a newline. -/
def joinNl (ls : List (List Char)) : List Char :=
  catL (ls.map (fun l => l ++ ['\n']))

/-- Model of `yaml.dump(m, sort_keys=False)` on this value universe: the
newline-terminated serialized lines of the entries in insertion order. -/
def yamlDump (m : Mapping) : List Char :=
  joinNl (dumpLines m)

/-- Join lines with newline separators but no trailing newline. -/
def interNl : List (List Char) → List Char
  | [] => []
  | [l] => l
  | l :: ls => l ++ '\n' :: interNl ls

/-- Scalar text as `yaml.safe_load` reads it back in this model: the literal
`null` is the YAML null, `[]` the empty sequence, anything else itself. -/
def scalarOf (v : List Char) : YVal :=
  if v = "null".toList then YVal.null
  else if v = "[]".toList then YVal.strList []
  else YVal.str v

/-- Split a line at its first colon, returning the text before and after. -/
def splitAtColon : List Char → Option (List Char × List Char)
  | [] => none
  | c :: rest =>
    if c = ':' then some ([], rest)
    else (splitAtColon rest).map (fun p => (c :: p.1, p.2))

/-- Line-level parser for the modelled YAML subset, processing lines from the
bottom up.  The state is the block-sequence items read so far that still
await their header, plus the mapping parsed below the current point.  A
`- x` line pushes an item; a `k:` header line closes the pending items into
a sequence value (or null when there are none); a `k: v` line is a scalar
entry and admits no pending items. -/
def parseLinesAux : List (List Char) → Option (List (List Char) × Mapping)
  | [] => some ([], [])
  | line :: rest =>
    match parseLinesAux rest with
    | none => none
    | some (pending, m) =>
      if leadsWith itemMark line then
        some (line.drop 2 :: pending, m)
      else
        match splitAtColon line with
        | none => none
        | some (k, after) =>
          if k.isEmpty then none
          else
            match after with
            | [] =>
              some ([], (k, if pending.isEmpty then YVal.null else YVal.strList pending) :: m)
            | ' ' :: v => if pending.isEmpty then some ([], (k, scalarOf v) :: m) else none
            | _ => none

/-- Parse a full line list: all pending items must be consumed. -/
def parseLines (ls : List (List Char)) : Option Mapping :=
  match parseLinesAux ls with
  | some ([], m) => some m
  | _ => none

/-- Model of `yaml.safe_load` on the front-matter block, restricted to the
flat-mapping subset described in the file header: split into lines, drop
blank lines, parse.  `none` covers both a parse error (in Python an uncaught
`YAMLError`, which also ends the run with exit code 1) and input outside the
modelled subset; an empty block yields the empty mapping, which the caller
treats exactly as Python treats `safe_load` returning `None` (both are
falsy). -/
def parseYaml (s : List Char) : Option Mapping :=
  parseLines ((splitOnChar '\n' s).filter (fun l => !l.isEmpty))

/-- Model of `get_post_content` (lines 11-33) on the text of an existing
file: run the front-matter regex search; on failure return the `None` triple
(here `none`); on success return the parsed mapping, the text from
`match.end()` on (the body), and `match.end()` itself (`body_start_index`). -/
def get_post_content (content : List Char) : Option (Mapping × List Char × Nat) :=
  match fmSearch content with
  | none => none
  | some (g, e) =>
    match parseYaml g with
    | none => none
    | some m => some (m, content.drop e, e)

/-- Python dict lookup on the association list. -/
def lookupKey : Mapping → List Char → Option YVal
  | [], _ => none
  | (k, v) :: rest, key => if k = key then some v else lookupKey rest key

/-- Python dict assignment `m[k] = v` on an insertion-ordered dict: update in
place when the key is present, append at the end when it is not. -/
def setKey : Mapping → List Char → YVal → Mapping
  | [], key, v => [(key, v)]
  | (k, w) :: rest, key, v =>
    if k = key then (key, v) :: rest else (k, w) :: setKey rest key v

/-- The keys of a mapping in order. -/
def keysOf (m : Mapping) : List (List Char) :=
  m.map Prod.fst

/-- Model of `update_post` (lines 73-90): set `llm_tags` to the new tag list,
serialize, re-read the file (same content, single-writer run) and slice the
body from `body_start_index`, and write
`f"---\n{new_front_matter_str}---\n{body_content}"`.  The returned list is
the file content after the write. -/
def update_post (content : List Char) (new_tags : List (List Char)) (fm : Mapping)
    (bodyStart : Nat) : List Char :=
  openMark ++ yamlDump (setKey fm GENERATED_TAGS_KEY (YVal.strList new_tags)) ++
    openMark ++ content.drop bodyStart

/-- Observable outcome of one run of the script: process exit code, whether
the target file was read, whether the external generator was called, whether
the file was written, and the file content when the process exits. -/
structure RunResult where
  exitCode : Nat
  fileRead : Bool
  llmCalled : Bool
  wrote : Bool
  finalContent : List Char
deriving DecidableEq, Repr

/-- Python truthiness test used on the two environment variables: unset
(`None`) and the empty string are falsy. -/
def falsyEnv : Option (List Char) → Bool
  | none => true
  | some s => s.isEmpty

/-- The generation-and-write tail of `__main__` (lines 119-135): call the
generator (an `APIError` or other exception is `resp = none`; otherwise the
response text is cleaned by `parseTags`), and only a non-empty tag list
leads to `update_post`; every other outcome logs a warning and exits 0 with
the file untouched. -/
def runGeneration (content : List Char) (fm : Mapping) (bodyStart : Nat)
    (resp : Option (List Char)) : RunResult :=
  match resp.bind parseTags with
  | some l =>
    if l.isEmpty then ⟨0, true, true, false, content⟩
    else ⟨0, true, true, true, update_post content l fm bodyStart⟩
  | none => ⟨0, true, true, false, content⟩

/-- Model of the `__main__` block (lines 93-135) for a run in which the
target file exists with text `content` and the external call, if made, is
answered by `resp`.  The guards appear in source order: the target variable
unset, empty or the literal `[]` is a graceful exit 0 before any file access;
a missing credential exits 1; a failed `get_post_content` exits 1 (this also
stands for `yaml.safe_load` raising, which kills the process with exit
code 1); the truthiness guard `if not front_matter or not content` exits 1;
the `llm_tags` gate exits 0 without calling the generator. -/
def mainRun (postToProcess apiKey : Option (List Char)) (content : List Char)
    (resp : Option (List Char)) : RunResult :=
  if falsyEnv postToProcess || (postToProcess == some "[]".toList) then
    ⟨0, false, false, false, content⟩
  else if falsyEnv apiKey then
    ⟨1, false, false, false, content⟩
  else
    match get_post_content content with
    | none => ⟨1, true, false, false, content⟩
    | some (fm, body, bodyStart) =>
      if fm.isEmpty || body.isEmpty then
        ⟨1, true, false, false, content⟩
      else
        match lookupKey fm GENERATED_TAGS_KEY with
        | some v =>
          if v = YVal.null then runGeneration content fm bodyStart resp
          else ⟨0, true, false, false, content⟩
        | none => runGeneration content fm bodyStart resp

/-- Well-formed key for the modelled YAML subset: non-empty, no newline, no
colon, not opening like a sequence item, not opening like a delimiter line. -/
def wfKey (k : List Char) : Prop :=
  k ≠ [] ∧ '\n' ∉ k ∧ ':' ∉ k ∧ leadsWith itemMark k = false ∧ leadsWith dashes3 k = false

instance (k : List Char) : Decidable (wfKey k) := by
  unfold wfKey; infer_instance

/-- Well-formed value: scalars carry no newline and are not the literals that
read back as null or the empty sequence; sequence items carry no newline. -/
def wfVal : YVal → Prop
  | YVal.str v => '\n' ∉ v ∧ v ≠ "null".toList ∧ v ≠ "[]".toList
  | YVal.null => True
  | YVal.strList xs => ∀ x ∈ xs, '\n' ∉ x

instance (v : YVal) : Decidable (wfVal v) := by
  cases v <;> simp only [wfVal] <;> infer_instance

/-- Well-formed entry. -/
def wfEntry (e : List Char × YVal) : Prop :=
  wfKey e.1 ∧ wfVal e.2

instance (e : List Char × YVal) : Decidable (wfEntry e) := by
  unfold wfEntry; infer_instance

/-- All entries of a mapping are well formed. -/
def wfEntries (m : Mapping) : Prop :=
  ∀ e ∈ m, wfEntry e

instance (m : Mapping) : Decidable (wfEntries m) :=
  List.decidableBAll _ m

/-- Well-formed tag list: items carry no newline. -/
def wfItems (tags : List (List Char)) : Prop :=
  ∀ x ∈ tags, '\n' ∉ x

instance (tags : List (List Char)) : Decidable (wfItems tags) :=
  List.decidableBAll _ tags


/-- Lines that `yaml.dump` emits for a well-formed mapping: non-empty, free
of newlines, and never opening with three dashes (so the rebuilt document's
closing delimiter is the first one the regex can see). -/
def goodLine (l : List Char) : Prop :=
  l ≠ [] ∧ '\n' ∉ l ∧ leadsWith dashes3 l = false

theorem catL_append {α : Type} (a b : List (List α)) : catL (a ++ b) = catL a ++ catL b := by
  induction a with
  | nil => simp [catL]
  | cons l ls ih => simp [catL, ih]

theorem joinNl_append (a b : List (List Char)) : joinNl (a ++ b) = joinNl a ++ joinNl b := by
  simp [joinNl, catL_append]

theorem dumpLines_append (a b : Mapping) : dumpLines (a ++ b) = dumpLines a ++ dumpLines b := by
  simp [dumpLines, catL_append]

theorem yamlDump_append (a b : Mapping) : yamlDump (a ++ b) = yamlDump a ++ yamlDump b := by
  simp [yamlDump, dumpLines_append, joinNl_append]

theorem keysOf_append (a b : Mapping) : keysOf (a ++ b) = keysOf a ++ keysOf b := by
  simp [keysOf]

theorem setKey_of_notMem : ∀ (m : Mapping) (key : List Char) (v : YVal),
    key ∉ keysOf m → setKey m key v = m ++ [(key, v)]
  | [], _, _, _ => rfl
  | (k, w) :: rest, key, v, h => by
    rw [show keysOf ((k, w) :: rest) = k :: keysOf rest from rfl] at h
    simp only [List.mem_cons, not_or] at h
    have hk : ¬(k = key) := fun e => h.1 e.symm
    simp [setKey, hk, setKey_of_notMem rest key v h.2]

theorem mem_catL {α : Type} : ∀ (ls : List (List α)) (x : α), x ∈ catL ls → ∃ l ∈ ls, x ∈ l
  | [], x, h => by simp [catL] at h
  | l :: ls, x, h => by
    rcases List.mem_append.mp (by simpa [catL] using h) with h1 | h2
    · exact ⟨l, by simp, h1⟩
    · obtain ⟨s, hs, hx⟩ := mem_catL ls x h2
      exact ⟨s, by simp [hs], hx⟩

theorem splitOnChar_ne_nil (sep : Char) (l : List Char) : splitOnChar sep l ≠ [] := by
  cases l with
  | nil => simp [splitOnChar]
  | cons a rest =>
    by_cases h : a = sep
    · simp [splitOnChar, h]
    · simp only [splitOnChar, if_neg h]
      cases hs : splitOnChar sep rest <;> simp

theorem splitOnChar_not_mem (sep : Char) (l : List Char) (h : sep ∉ l) :
    splitOnChar sep l = [l] := by
  induction l with
  | nil => rfl
  | cons a rest ih =>
    have ha : ¬(a = sep) := fun e => h (by simp [e])
    have hr : sep ∉ rest := fun e => h (by simp [e])
    simp [splitOnChar, ha, ih hr]

theorem splitOnChar_append_sep (sep : Char) (l rest : List Char) (h : sep ∉ l) :
    splitOnChar sep (l ++ sep :: rest) = l :: splitOnChar sep rest := by
  induction l with
  | nil => simp [splitOnChar]
  | cons a l1 ih =>
    have ha : ¬(a = sep) := fun e => h (by simp [e])
    have h1 : sep ∉ l1 := fun e => h (by simp [e])
    rw [List.cons_append]
    simp [splitOnChar, ha, ih h1]

theorem splitOnChar_joinNl : ∀ (ls : List (List Char)), (∀ l ∈ ls, '\n' ∉ l) →
    splitOnChar '\n' (joinNl ls) = ls ++ [[]]
  | [], _ => by simp [joinNl, catL, splitOnChar]
  | l :: ls1, h => by
    have e : joinNl (l :: ls1) = l ++ '\n' :: joinNl ls1 := by simp [joinNl, catL]
    rw [e, splitOnChar_append_sep '\n' l _ (h l (by simp)),
      splitOnChar_joinNl ls1 (fun x hx => h x (by simp [hx]))]
    rfl

theorem splitOnChar_interNl : ∀ (ls : List (List Char)), ls ≠ [] → (∀ l ∈ ls, '\n' ∉ l) →
    splitOnChar '\n' (interNl ls) = ls
  | [], h, _ => absurd rfl h
  | [l], _, h => by simp [interNl, splitOnChar_not_mem '\n' l (h l (by simp))]
  | l :: m :: ls2, _, h => by
    have e : interNl (l :: m :: ls2) = l ++ '\n' :: interNl (m :: ls2) := rfl
    rw [e, splitOnChar_append_sep '\n' l _ (h l (by simp)),
      splitOnChar_interNl (m :: ls2) (by simp) (fun x hx => h x (by simp [hx]))]

theorem joinNl_eq_interNl : ∀ (ls : List (List Char)), ls ≠ [] →
    joinNl ls = interNl ls ++ ['\n']
  | [], h => absurd rfl h
  | [l], _ => by simp [joinNl, interNl, catL]
  | l :: m :: ls2, _ => by
    have e1 : joinNl (l :: m :: ls2) = (l ++ ['\n']) ++ joinNl (m :: ls2) := by
      simp [joinNl, catL]
    rw [e1, joinNl_eq_interNl (m :: ls2) (by simp)]
    have e2 : interNl (l :: m :: ls2) = l ++ '\n' :: interNl (m :: ls2) := rfl
    rw [e2]
    simp

theorem filter_nonempty_self (ls : List (List Char)) (h : ∀ l ∈ ls, l ≠ []) :
    ls.filter (fun l => !l.isEmpty) = ls := by
  induction ls with
  | nil => rfl
  | cons l ls1 ih =>
    have hl : (!l.isEmpty) = true := by
      simpa using h l (by simp)
    simp [List.filter, hl, ih (fun x hx => h x (by simp [hx]))]

theorem filter_app_nil (ls : List (List Char)) (h : ∀ l ∈ ls, l ≠ []) :
    (ls ++ [[]]).filter (fun l => !l.isEmpty) = ls := by
  rw [List.filter_append, filter_nonempty_self ls h]
  simp

theorem splitAtColon_append (k t : List Char) (h : ':' ∉ k) :
    splitAtColon (k ++ ':' :: t) = some (k, t) := by
  induction k with
  | nil => simp [splitAtColon]
  | cons c k1 ih =>
    have hc : ¬(c = ':') := fun e => h (by simp [e])
    have h1 : ':' ∉ k1 := fun e => h (by simp [e])
    simp [splitAtColon, hc, ih h1]

theorem leadsWith_dashes3_ext (k : List Char) (c : Char) (t : List Char)
    (hk : leadsWith dashes3 k = false) (hc : ¬(c = '-')) :
    leadsWith dashes3 (k ++ c :: t) = false := by
  have hcb : ('-' == c) = false := by
    simpa using fun e => hc e.symm
  cases k with
  | nil => simp [dashes3, leadsWith, hcb]
  | cons a k1 =>
    cases k1 with
    | nil => simp [dashes3, leadsWith, hcb]
    | cons b k2 =>
      cases k2 with
      | nil => simp [dashes3, leadsWith, hcb]
      | cons d k3 =>
        simp [dashes3, leadsWith] at hk ⊢
        exact hk

theorem leadsWith_itemMark_ext (k : List Char) (t : List Char)
    (hk : leadsWith itemMark k = false) :
    leadsWith itemMark (k ++ ':' :: t) = false := by
  cases k with
  | nil => simp [itemMark, leadsWith]
  | cons a k1 =>
    cases k1 with
    | nil => simp [itemMark, leadsWith]
    | cons b k2 =>
      simp [itemMark, leadsWith] at hk ⊢
      exact hk

theorem entryLines_good (e : List Char × YVal) (he : wfEntry e) :
    ∀ l ∈ entryLines e, goodLine l := by
  obtain ⟨k, v⟩ := e
  obtain ⟨⟨hk1, hk2, hk3, hk4, hk5⟩, hv⟩ := he
  have hcolon : ¬((':' : Char) = '-') := by decide
  cases v with
  | str s => ?_
  | null => ?_
  | strList xs => ?_
  · intro l hl
    rw [show entryLines (k, YVal.str s) = [k ++ ':' :: ' ' :: s] from rfl] at hl
    rw [List.mem_singleton.mp hl]
    refine ⟨by simp, ?_, leadsWith_dashes3_ext k ':' _ hk5 hcolon⟩
    simp only [List.mem_append, List.mem_cons]
    rintro (h | h | h | h)
    · exact hk2 h
    · exact absurd h (by decide)
    · exact absurd h (by decide)
    · exact hv.1 h
  · intro l hl
    rw [show entryLines (k, YVal.null) = [k ++ ':' :: ' ' :: "null".toList] from rfl] at hl
    rw [List.mem_singleton.mp hl]
    refine ⟨by simp, ?_, leadsWith_dashes3_ext k ':' _ hk5 hcolon⟩
    simp only [List.mem_append, List.mem_cons]
    rintro (h | h)
    · exact hk2 h
    · exact absurd h (by decide)
  · cases xs with
    | nil =>
      intro l hl
      rw [show entryLines (k, YVal.strList []) = [k ++ ':' :: ' ' :: "[]".toList] from rfl] at hl
      rw [List.mem_singleton.mp hl]
      refine ⟨by simp, ?_, leadsWith_dashes3_ext k ':' _ hk5 hcolon⟩
      simp only [List.mem_append, List.mem_cons]
      rintro (h | h)
      · exact hk2 h
      · exact absurd h (by decide)
    | cons x xs1 =>
      intro l hl
      rw [show entryLines (k, YVal.strList (x :: xs1)) =
        (k ++ [':']) :: (x :: xs1).map (fun i => '-' :: ' ' :: i) from rfl] at hl
      rcases List.mem_cons.mp hl with h | h
      · rw [h]
        refine ⟨by simp, ?_, leadsWith_dashes3_ext k ':' _ hk5 hcolon⟩
        simp only [List.mem_append, List.mem_cons]
        rintro (h1 | h1)
        · exact hk2 h1
        · exact absurd h1 (by simp)
      · obtain ⟨i, hi, hli⟩ := List.mem_map.mp h
        rw [← hli]
        refine ⟨by simp, ?_, by simp [leadsWith, dashes3]⟩
        simp only [List.mem_cons]
        rintro (h1 | h1 | h1)
        · exact absurd h1 (by decide)
        · exact absurd h1 (by decide)
        · exact hv i hi h1

theorem dumpLines_good (m : Mapping) (hm : wfEntries m) :
    ∀ l ∈ dumpLines m, goodLine l := by
  intro l hl
  obtain ⟨s, hs, hls⟩ := mem_catL (m.map entryLines) l hl
  obtain ⟨e, he, hse⟩ := List.mem_map.mp hs
  rw [← hse] at hls
  exact entryLines_good e (hm e he) l hls

theorem parseLinesAux_items : ∀ (xs rest : List (List Char)) (m : Mapping),
    parseLinesAux rest = some ([], m) →
    parseLinesAux ((xs.map (fun i => '-' :: ' ' :: i)) ++ rest) = some (xs, m)
  | [], rest, m, h => by simpa using h
  | x :: xs1, rest, m, h => by
    have ih := parseLinesAux_items xs1 rest m h
    rw [List.map_cons, List.cons_append, parseLinesAux, ih]
    simp [leadsWith, itemMark]

theorem parseLinesAux_entry (e : List Char × YVal) (he : wfEntry e)
    (rest : List (List Char)) (m : Mapping) (h : parseLinesAux rest = some ([], m)) :
    parseLinesAux (entryLines e ++ rest) = some ([], e :: m) := by
  obtain ⟨k, v⟩ := e
  obtain ⟨⟨hk1, hk2, hk3, hk4, hk5⟩, hv⟩ := he
  have hkE : k.isEmpty = false := by
    simpa using hk1
  cases v with
  | str s =>
    rw [show entryLines (k, YVal.str s) = [k ++ ':' :: ' ' :: s] from rfl,
      List.singleton_append, parseLinesAux, h]
    simp only [leadsWith_itemMark_ext k _ hk4, splitAtColon_append k _ hk3, hkE]
    have h1 : ¬(s = ['n', 'u', 'l', 'l']) := hv.2.1
    have h2 : ¬(s = ['[', ']']) := hv.2.2
    simp [scalarOf, h1, h2]
  | null =>
    rw [show entryLines (k, YVal.null) = [k ++ ':' :: ' ' :: "null".toList] from rfl,
      List.singleton_append, parseLinesAux, h]
    simp only [leadsWith_itemMark_ext k _ hk4, splitAtColon_append k _ hk3, hkE]
    simp [scalarOf]
  | strList xs =>
    cases xs with
    | nil =>
      rw [show entryLines (k, YVal.strList []) = [k ++ ':' :: ' ' :: "[]".toList] from rfl,
        List.singleton_append, parseLinesAux, h]
      simp only [leadsWith_itemMark_ext k _ hk4, splitAtColon_append k _ hk3, hkE]
      simp [scalarOf]
    | cons x xs1 =>
      rw [show entryLines (k, YVal.strList (x :: xs1)) =
        (k ++ [':']) :: (x :: xs1).map (fun i => '-' :: ' ' :: i) from rfl,
        List.cons_append, parseLinesAux, parseLinesAux_items (x :: xs1) rest m h]
      simp only [leadsWith_itemMark_ext k [] hk4, splitAtColon_append k [] hk3, hkE]
      simp

theorem parseLinesAux_dump : ∀ (m : Mapping), wfEntries m →
    parseLinesAux (dumpLines m) = some ([], m)
  | [], _ => rfl
  | e :: m1, h => by
    rw [show dumpLines (e :: m1) = entryLines e ++ dumpLines m1 from by simp [dumpLines, catL]]
    exact parseLinesAux_entry e (h e (by simp)) _ _
      (parseLinesAux_dump m1 (fun x hx => h x (by simp [hx])))

theorem parse_dump (m : Mapping) (h : wfEntries m) : parseYaml (yamlDump m) = some m := by
  unfold parseYaml yamlDump
  rw [splitOnChar_joinNl (dumpLines m) (fun l hl => (dumpLines_good m h l hl).2.1),
    filter_app_nil _ (fun l hl => (dumpLines_good m h l hl).1)]
  unfold parseLines
  rw [parseLinesAux_dump m h]

theorem firstIdxOf_line_skip (l tail : List Char) (hl : '\n' ∉ l) :
    firstIdxOf closeMark (l ++ '\n' :: tail) =
      if leadsWith dashes3 tail then some l.length
      else (firstIdxOf closeMark tail).map (· + (l.length + 1)) := by
  induction l with
  | nil =>
    rw [List.nil_append, firstIdxOf]
    have e : leadsWith closeMark ('\n' :: tail) = leadsWith dashes3 tail := by
      simp [closeMark, dashes3, leadsWith]
    rw [e]
    by_cases h : leadsWith dashes3 tail
    · simp [h]
    · simp [h]
  | cons c l1 ih =>
    have hc : ¬(c = '\n') := fun e => hl (by simp [e])
    have h1 : '\n' ∉ l1 := fun e => hl (by simp [e])
    rw [List.cons_append, firstIdxOf]
    have hlw : leadsWith closeMark (c :: (l1 ++ '\n' :: tail)) = false := by
      simp only [closeMark, leadsWith, Bool.and_eq_false_iff]
      left
      simpa using fun e => hc e.symm
    rw [hlw]
    simp only [Bool.false_eq_true, if_false]
    rw [ih h1]
    by_cases h : leadsWith dashes3 tail
    · simp [h]
    · cases hx : firstIdxOf closeMark tail with
      | none => simp [h, hx]
      | some a =>
        simp [h, hx]
        omega

theorem leadsWith_dashes3_joinNl (ls : List (List Char)) (hls : ls ≠ [])
    (h : ∀ l ∈ ls, goodLine l) (w : List Char) :
    leadsWith dashes3 (joinNl ls ++ w) = false := by
  obtain ⟨l, ls1, rfl⟩ := List.exists_cons_of_ne_nil hls
  have e : joinNl (l :: ls1) ++ w = l ++ '\n' :: (joinNl ls1 ++ w) := by
    simp [joinNl, catL]
  rw [e]
  exact leadsWith_dashes3_ext l '\n' _ ((h l (by simp)).2.2) (by decide)

theorem joinNl_length_pos (ls : List (List Char)) (hls : ls ≠ []) :
    0 < (joinNl ls).length := by
  obtain ⟨l, ls1, rfl⟩ := List.exists_cons_of_ne_nil hls
  have e : joinNl (l :: ls1) = (l ++ ['\n']) ++ joinNl ls1 := by
    simp [joinNl, catL]
  rw [e]
  simp [List.length_append]

theorem firstIdxOf_joinNl : ∀ (ls : List (List Char)), ls ≠ [] → (∀ l ∈ ls, goodLine l) →
    ∀ (tail : List Char), leadsWith dashes3 tail = true →
    firstIdxOf closeMark (joinNl ls ++ tail) = some ((joinNl ls).length - 1)
  | [], h, _, _, _ => absurd rfl h
  | [l], _, h, tail, ht => by
    have e : joinNl [l] ++ tail = l ++ '\n' :: tail := by simp [joinNl, catL]
    rw [e, firstIdxOf_line_skip l tail (h l (by simp)).2.1, if_pos ht]
    have e2 : (joinNl [l]).length = l.length + 1 := by simp [joinNl, catL]
    rw [e2]
    simp
  | l :: m :: ls2, _, h, tail, ht => by
    have hrest : ∀ x ∈ m :: ls2, goodLine x := fun x hx => h x (by simp [hx])
    have e : joinNl (l :: m :: ls2) ++ tail = l ++ '\n' :: (joinNl (m :: ls2) ++ tail) := by
      simp [joinNl, catL]
    rw [e, firstIdxOf_line_skip l _ (h l (by simp)).2.1,
      if_neg (by simp [leadsWith_dashes3_joinNl (m :: ls2) (by simp) hrest tail]),
      firstIdxOf_joinNl (m :: ls2) (by simp) hrest tail ht]
    have hp := joinNl_length_pos (m :: ls2) (by simp)
    have e2 : (joinNl (l :: m :: ls2)).length = l.length + 1 + (joinNl (m :: ls2)).length := by
      simp [joinNl, catL, List.length_append]
      omega
    rw [e2]
    simp only [Option.map_some']
    congr 1
    omega

theorem entryLines_ne_nil (e : List Char × YVal) : entryLines e ≠ [] := by
  obtain ⟨k, v⟩ := e
  cases v with
  | str s => simp [entryLines]
  | null => simp [entryLines]
  | strList xs => cases xs <;> simp [entryLines]

theorem dumpLines_ne_nil (m : Mapping) (h : m ≠ []) : dumpLines m ≠ [] := by
  obtain ⟨e, m1, rfl⟩ := List.exists_cons_of_ne_nil h
  have e1 : dumpLines (e :: m1) = entryLines e ++ dumpLines m1 := by simp [dumpLines, catL]
  rw [e1]
  simpa using fun hc => entryLines_ne_nil e (List.append_eq_nil.mp hc).1

theorem parseYaml_interNl (m : Mapping) (hwf : wfEntries m) (hne : m ≠ []) :
    parseYaml (interNl (dumpLines m)) = some m := by
  have hlines : ∀ l ∈ dumpLines m, goodLine l := dumpLines_good m hwf
  unfold parseYaml
  rw [splitOnChar_interNl (dumpLines m) (dumpLines_ne_nil m hne)
      (fun l hl => (hlines l hl).2.1),
    filter_nonempty_self (dumpLines m) (fun l hl => (hlines l hl).1)]
  unfold parseLines
  rw [parseLinesAux_dump m hwf]

theorem fmSearch_rebuild (m2 : Mapping) (B : List Char) (hwf : wfEntries m2)
    (hne : m2 ≠ []) :
    fmSearch (openMark ++ (yamlDump m2 ++ (openMark ++ B))) =
      some (interNl (dumpLines m2), (yamlDump m2).length + 7) := by
  have hlines : ∀ l ∈ dumpLines m2, goodLine l := dumpLines_good m2 hwf
  have hlsne : dumpLines m2 ≠ [] := dumpLines_ne_nil m2 hne
  have hJlen : 0 < (yamlDump m2).length := joinNl_length_pos (dumpLines m2) hlsne
  have hfi : firstIdxOf closeMark (yamlDump m2 ++ (openMark ++ B)) =
      some ((yamlDump m2).length - 1) := by
    have hdash : leadsWith dashes3 (openMark ++ B) = true := by
      simp [openMark, dashes3, leadsWith]
    exact firstIdxOf_joinNl (dumpLines m2) hlsne hlines (openMark ++ B) hdash
  have htake : (yamlDump m2 ++ (openMark ++ B)).take ((yamlDump m2).length - 1) =
      interNl (dumpLines m2) := by
    have hJ : yamlDump m2 = interNl (dumpLines m2) ++ ['\n'] :=
      joinNl_eq_interNl (dumpLines m2) hlsne
    rw [hJ, List.append_assoc]
    have e : (interNl (dumpLines m2) ++ ['\n']).length - 1 =
        (interNl (dumpLines m2)).length := by
      simp [List.length_append]
    rw [e, List.take_left]
  unfold fmSearch
  rw [show openMark ++ (yamlDump m2 ++ (openMark ++ B)) =
    '-' :: '-' :: '-' :: '\n' :: (yamlDump m2 ++ (openMark ++ B)) from rfl]
  rw [fmSearchAux]
  simp only [leadsWith, openMark, List.drop_succ_cons, List.drop_zero, beq_self_eq_true,
    Bool.and_self, Bool.and_true, Bool.true_and, if_true]
  simp only [openMark] at hfi htake
  rw [hfi]
  simp only [htake]
  congr 1
  congr 1
  omega

theorem get_post_content_rebuild (m2 : Mapping) (B : List Char) (hwf : wfEntries m2)
    (hne : m2 ≠ []) :
    get_post_content (openMark ++ (yamlDump m2 ++ (openMark ++ B))) =
      some (m2, '\n' :: B, (yamlDump m2).length + 7) := by
  have hdrop : (openMark ++ (yamlDump m2 ++ (openMark ++ B))).drop
      ((yamlDump m2).length + 7) = '\n' :: B := by
    rw [← List.append_assoc]
    have hlen : (openMark ++ yamlDump m2).length + 3 = (yamlDump m2).length + 7 := by
      simp [openMark]
    rw [← hlen, List.drop_append]
    rfl
  unfold get_post_content
  rw [fmSearch_rebuild m2 B hwf hne]
  simp only [parseYaml_interNl m2 hwf hne]
  rw [hdrop]

/-- C1 amended: for a valid document split as `(M, B, off)` with well-formed
metadata not yet containing the reserved key, rewriting via `update_post`
with a well-formed tag list and re-splitting yields metadata equal to `M`
with `llm_tags` appended last, but a body equal to one NEWLINE followed by
`B`: the rewrite template `---\n{yaml}---\n{body}` re-inserts the newline
that `match.end()` already left at the head of the body, so the body is not
preserved byte-for-byte. -/
theorem c1_roundtrip_amended (D : List Char) (M : Mapping) (B : List Char) (off : Nat)
    (tags : List (List Char))
    (hsplit : get_post_content D = some (M, B, off))
    (hwf : wfEntries M) (hkey : GENERATED_TAGS_KEY ∉ keysOf M) (htags : wfItems tags) :
    get_post_content (update_post D tags M off) =
      some (M ++ [(GENERATED_TAGS_KEY, YVal.strList tags)], '\n' :: B,
        (yamlDump (M ++ [(GENERATED_TAGS_KEY, YVal.strList tags)])).length + 7) := by
  have hB : B = D.drop off := by
    unfold get_post_content at hsplit
    cases hs : fmSearch D with
    | none => rw [hs] at hsplit; exact absurd hsplit (by simp)
    | some p =>
      obtain ⟨g, e⟩ := p
      rw [hs] at hsplit
      dsimp only at hsplit
      cases hp : parseYaml g with
      | none => rw [hp] at hsplit; exact absurd hsplit (by simp)
      | some m =>
        rw [hp] at hsplit
        simp only [Option.some.injEq, Prod.mk.injEq] at hsplit
        rw [← hsplit.2.1, ← hsplit.2.2]
  have hM2wf : wfEntries (M ++ [(GENERATED_TAGS_KEY, YVal.strList tags)]) := by
    intro e he
    rcases List.mem_append.mp he with h | h
    · exact hwf e h
    · rw [List.mem_singleton.mp h]
      exact ⟨(by decide : wfKey GENERATED_TAGS_KEY), htags⟩
  have hne : M ++ [(GENERATED_TAGS_KEY, YVal.strList tags)] ≠ [] := by simp
  have hupd : update_post D tags M off =
      openMark ++ (yamlDump (M ++ [(GENERATED_TAGS_KEY, YVal.strList tags)]) ++
        (openMark ++ D.drop off)) := by
    unfold update_post
    rw [setKey_of_notMem M GENERATED_TAGS_KEY (YVal.strList tags) hkey]
    simp [List.append_assoc]
  rw [hupd, ← hB]
  exact get_post_content_rebuild (M ++ [(GENERATED_TAGS_KEY, YVal.strList tags)]) B hM2wf hne

theorem c1_roundtrip_amended_witness :
    get_post_content (update_post "---\ntitle: Hello\n---\nBody text.".toList
        ["go".toList, "rust".toList, "cli".toList]
        [("title".toList, YVal.str "Hello".toList)] 20) =
      some ([("title".toList, YVal.str "Hello".toList)] ++
          [(GENERATED_TAGS_KEY, YVal.strList ["go".toList, "rust".toList, "cli".toList])],
        '\n' :: "\nBody text.".toList,
        (yamlDump ([("title".toList, YVal.str "Hello".toList)] ++
          [(GENERATED_TAGS_KEY,
            YVal.strList ["go".toList, "rust".toList, "cli".toList])])).length + 7) :=
  c1_roundtrip_amended "---\ntitle: Hello\n---\nBody text.".toList
    [("title".toList, YVal.str "Hello".toList)] "\nBody text.".toList 20
    ["go".toList, "rust".toList, "cli".toList]
    (by decide) (by decide) (by decide) (by decide)

/-- C1 counterexample: on the concrete document `---\ntitle: Hello\n---\nBody
text.` with tags `go, rust, cli`, the original split returns body
`\nBody text.`, but re-reading and re-splitting after `update_post` returns
body `\n\nBody text.`, which is not byte-identical to the original body, so
the round-trip claim fails as stated. -/
theorem c1_claim_counterexample :
    get_post_content "---\ntitle: Hello\n---\nBody text.".toList =
      some ([("title".toList, YVal.str "Hello".toList)], "\nBody text.".toList, 20) ∧
    get_post_content (update_post "---\ntitle: Hello\n---\nBody text.".toList
        ["go".toList, "rust".toList, "cli".toList]
        [("title".toList, YVal.str "Hello".toList)] 20) =
      some ([("title".toList, YVal.str "Hello".toList),
          (GENERATED_TAGS_KEY, YVal.strList ["go".toList, "rust".toList, "cli".toList])],
        "\n\nBody text.".toList, 48) ∧
    ¬("\n\nBody text.".toList = "\nBody text.".toList) :=
  ⟨by decide, by decide, by decide⟩

/-- C2: the code accepts a front-matter block that does NOT start at the very
beginning of the document.  On `Intro\n---\ntitle: x\n---\nBody` the regex,
run with `re.MULTILINE`, anchors `^` at the line start after `Intro` and the
splitter returns a parsed mapping instead of the `None` triple, contradicting
the claim (and the script's own comment that the block must be at the start
of the file). -/
theorem c2_code_accepts_nonleading_block :
    get_post_content "Intro\n---\ntitle: x\n---\nBody".toList =
      some ([("title".toList, YVal.str "x".toList)], "\nBody".toList, 22) := by
  decide

/-- C3: with the target file and the credential both set, a document that
parses successfully but has an empty body exits with code 1 (the guard
`if not front_matter or not content` treats the empty body string as a
failure), so exit code 1 is not limited to a missing credential or an
unparseable document. -/
theorem c3_exit_one_on_parseable_empty_body :
    mainRun (some "p".toList) (some "k".toList) "---\na: b\n---".toList none =
      ⟨1, true, false, false, "---\na: b\n---".toList⟩ ∧
    get_post_content "---\na: b\n---".toList =
      some ([("a".toList, YVal.str "b".toList)], [], 12) :=
  ⟨by decide, by decide⟩

/-- C4: a document whose closing delimiter is immediately followed by
end-of-file parses to an empty body, and the run exits with the fatal code 1
instead of treating the empty body as legal: `if not front_matter or not
content` is true for the empty body string. -/
theorem c4_empty_body_fatal :
    mainRun (some "p".toList) (some "k".toList) "---\ntitle: Hello\n---".toList none =
      ⟨1, true, false, false, "---\ntitle: Hello\n---".toList⟩ ∧
    get_post_content "---\ntitle: Hello\n---".toList =
      some ([("title".toList, YVal.str "Hello".toList)], [], 20) :=
  ⟨by decide, by decide⟩

/-- C9: a target-file variable holding the literal string `[]` behaves
exactly like an unset variable: the run is identical to the unset-variable
run, exits 0, reads no file, makes no external call, and writes nothing. -/
theorem c9_bracket_env_noop (apiKey : Option (List Char)) (content : List Char)
    (resp : Option (List Char)) :
    mainRun (some "[]".toList) apiKey content resp = mainRun none apiKey content resp ∧
    mainRun (some "[]".toList) apiKey content resp = ⟨0, false, false, false, content⟩ :=
  ⟨rfl, rfl⟩

/-- C7: inserting the reserved key into a mapping that does not contain it
appends the new entry at the end: the entry list, the key list, and the
serialized text of all pre-existing entries are unchanged and the reserved
key's serialization is appended after them. -/
theorem c7_insert_preserves_order (m : Mapping) (tags : List (List Char))
    (h : GENERATED_TAGS_KEY ∉ keysOf m) :
    setKey m GENERATED_TAGS_KEY (YVal.strList tags) =
      m ++ [(GENERATED_TAGS_KEY, YVal.strList tags)] ∧
    keysOf (setKey m GENERATED_TAGS_KEY (YVal.strList tags)) =
      keysOf m ++ [GENERATED_TAGS_KEY] ∧
    yamlDump (setKey m GENERATED_TAGS_KEY (YVal.strList tags)) =
      yamlDump m ++ yamlDump [(GENERATED_TAGS_KEY, YVal.strList tags)] := by
  have e := setKey_of_notMem m GENERATED_TAGS_KEY (YVal.strList tags) h
  refine ⟨e, ?_, ?_⟩
  · rw [e, keysOf_append]
    rfl
  · rw [e, yamlDump_append]

theorem c7_insert_preserves_order_witness :
    setKey [("title".toList, YVal.str "Hi".toList)] GENERATED_TAGS_KEY
        (YVal.strList ["a".toList]) =
      [("title".toList, YVal.str "Hi".toList)] ++
        [(GENERATED_TAGS_KEY, YVal.strList ["a".toList])] ∧
    keysOf (setKey [("title".toList, YVal.str "Hi".toList)] GENERATED_TAGS_KEY
        (YVal.strList ["a".toList])) =
      keysOf [("title".toList, YVal.str "Hi".toList)] ++ [GENERATED_TAGS_KEY] ∧
    yamlDump (setKey [("title".toList, YVal.str "Hi".toList)] GENERATED_TAGS_KEY
        (YVal.strList ["a".toList])) =
      yamlDump [("title".toList, YVal.str "Hi".toList)] ++
        yamlDump [(GENERATED_TAGS_KEY, YVal.strList ["a".toList])] :=
  c7_insert_preserves_order [("title".toList, YVal.str "Hi".toList)] ["a".toList] (by decide)

/-- C8: for a well-formed mapping not containing the reserved key,
serializing, parsing the result, and serializing again reproduces the first
serialization exactly; indeed parsing the serialization recovers the mapping
itself. -/
theorem c8_serialize_roundtrip (m : Mapping) (hwf : wfEntries m)
    (_hkey : GENERATED_TAGS_KEY ∉ keysOf m) :
    parseYaml (yamlDump m) = some m ∧
    (parseYaml (yamlDump m)).map yamlDump = some (yamlDump m) := by
  refine ⟨parse_dump m hwf, ?_⟩
  rw [parse_dump m hwf]
  rfl

theorem c8_serialize_roundtrip_witness :
    parseYaml (yamlDump [("title".toList, YVal.str "Hi".toList),
        ("tags".toList, YVal.strList ["x".toList, "y".toList]),
        ("draft".toList, YVal.null)]) =
      some [("title".toList, YVal.str "Hi".toList),
        ("tags".toList, YVal.strList ["x".toList, "y".toList]),
        ("draft".toList, YVal.null)] ∧
    (parseYaml (yamlDump [("title".toList, YVal.str "Hi".toList),
        ("tags".toList, YVal.strList ["x".toList, "y".toList]),
        ("draft".toList, YVal.null)])).map yamlDump =
      some (yamlDump [("title".toList, YVal.str "Hi".toList),
        ("tags".toList, YVal.strList ["x".toList, "y".toList]),
        ("draft".toList, YVal.null)]) :=
  c8_serialize_roundtrip [("title".toList, YVal.str "Hi".toList),
    ("tags".toList, YVal.strList ["x".toList, "y".toList]),
    ("draft".toList, YVal.null)] (by decide) (by decide)

/-- C5: for any run whose document parses to a mapping in which the reserved
key `llm_tags` is present with a non-null value, the external generator is
never called, the file is never written, and the final file content is
byte-identical to the input, whatever the environment variables and the
(unused) generator response are. -/
theorem c5_gate_short_circuits (postToProcess apiKey : Option (List Char))
    (content : List Char) (resp : Option (List Char)) (M : Mapping) (B : List Char)
    (off : Nat) (v : YVal)
    (hsplit : get_post_content content = some (M, B, off))
    (hv : lookupKey M GENERATED_TAGS_KEY = some v) (hnn : ¬(v = YVal.null)) :
    (mainRun postToProcess apiKey content resp).llmCalled = false ∧
    (mainRun postToProcess apiKey content resp).wrote = false ∧
    (mainRun postToProcess apiKey content resp).finalContent = content := by
  unfold mainRun
  by_cases h1 : (falsyEnv postToProcess || (postToProcess == some "[]".toList)) = true
  · rw [if_pos h1]
    exact ⟨rfl, rfl, rfl⟩
  · rw [if_neg h1]
    by_cases h2 : falsyEnv apiKey = true
    · rw [if_pos h2]
      exact ⟨rfl, rfl, rfl⟩
    · rw [if_neg h2]
      rw [hsplit]
      dsimp only
      by_cases h3 : (M.isEmpty || B.isEmpty) = true
      · rw [if_pos h3]
        exact ⟨rfl, rfl, rfl⟩
      · rw [if_neg h3]
        rw [hv]
        dsimp only
        rw [if_neg hnn]
        exact ⟨rfl, rfl, rfl⟩

theorem c5_gate_short_circuits_witness :
    (mainRun (some "p".toList) (some "k".toList)
        "---\ntitle: Hi\nllm_tags:\n- a\n---\nBody".toList none).llmCalled = false ∧
    (mainRun (some "p".toList) (some "k".toList)
        "---\ntitle: Hi\nllm_tags:\n- a\n---\nBody".toList none).wrote = false ∧
    (mainRun (some "p".toList) (some "k".toList)
        "---\ntitle: Hi\nllm_tags:\n- a\n---\nBody".toList none).finalContent =
      "---\ntitle: Hi\nllm_tags:\n- a\n---\nBody".toList :=
  c5_gate_short_circuits (some "p".toList) (some "k".toList)
    "---\ntitle: Hi\nllm_tags:\n- a\n---\nBody".toList none
    [("title".toList, YVal.str "Hi".toList), (GENERATED_TAGS_KEY, YVal.strList ["a".toList])]
    "\nBody".toList 31 (YVal.strList ["a".toList]) (by decide) (by decide) (by decide)

theorem runGeneration_frame (content : List Char) (fm : Mapping) (bodyStart : Nat)
    (resp : Option (List Char)) :
    ((runGeneration content fm bodyStart resp).wrote = false →
      (runGeneration content fm bodyStart resp).finalContent = content) ∧
    ((runGeneration content fm bodyStart resp).wrote = true →
      (runGeneration content fm bodyStart resp).llmCalled = true ∧
      ∃ l, resp.bind parseTags = some l ∧ ¬(l = []) ∧
        (runGeneration content fm bodyStart resp).exitCode = 0) := by
  unfold runGeneration
  cases hr : resp.bind parseTags with
  | none => exact ⟨fun _ => rfl, fun h => absurd h (by simp)⟩
  | some l =>
    dsimp only
    by_cases hl : l.isEmpty = true
    · rw [if_pos hl]
      exact ⟨fun _ => rfl, fun h => absurd h (by simp)⟩
    · rw [if_neg hl]
      refine ⟨fun h => absurd h (by simp), fun _ => ⟨rfl, l, rfl, ?_, rfl⟩⟩
      simpa using hl

/-- C10: in every run, the file content is unchanged unless a write happens,
and a write happens only when the external generator was actually called and
its response parsed to a non-empty tag list (in which case the run exits 0).
The script has a single write site, so `wrote` models "opened for writing at
most once". -/
theorem c10_write_frame (postToProcess apiKey : Option (List Char)) (content : List Char)
    (resp : Option (List Char)) :
    ((mainRun postToProcess apiKey content resp).wrote = false →
      (mainRun postToProcess apiKey content resp).finalContent = content) ∧
    ((mainRun postToProcess apiKey content resp).wrote = true →
      (mainRun postToProcess apiKey content resp).llmCalled = true ∧
      ∃ l, resp.bind parseTags = some l ∧ ¬(l = []) ∧
        (mainRun postToProcess apiKey content resp).exitCode = 0) := by
  unfold mainRun
  by_cases h1 : (falsyEnv postToProcess || (postToProcess == some "[]".toList)) = true
  · rw [if_pos h1]
    exact ⟨fun _ => rfl, fun h => absurd h (by simp)⟩
  · rw [if_neg h1]
    by_cases h2 : falsyEnv apiKey = true
    · rw [if_pos h2]
      exact ⟨fun _ => rfl, fun h => absurd h (by simp)⟩
    · rw [if_neg h2]
      cases hg : get_post_content content with
      | none => exact ⟨fun _ => rfl, fun h => absurd h (by simp)⟩
      | some t =>
        obtain ⟨fm, body, bodyStart⟩ := t
        dsimp only
        by_cases h3 : (fm.isEmpty || body.isEmpty) = true
        · rw [if_pos h3]
          exact ⟨fun _ => rfl, fun h => absurd h (by simp)⟩
        · rw [if_neg h3]
          cases hk : lookupKey fm GENERATED_TAGS_KEY with
          | none => exact runGeneration_frame content fm bodyStart resp
          | some v =>
            dsimp only
            by_cases hv : v = YVal.null
            · rw [if_pos hv]
              exact runGeneration_frame content fm bodyStart resp
            · rw [if_neg hv]
              exact ⟨fun _ => rfl, fun h => absurd h (by simp)⟩

theorem c10_write_frame_witness :
    (mainRun (some "p".toList) (some "k".toList) "---\ntitle: Hi\n---\nBody".toList
        (some "go, rust".toList)).llmCalled = true ∧
    ∃ l, (some "go, rust".toList).bind parseTags = some l ∧ ¬(l = []) ∧
      (mainRun (some "p".toList) (some "k".toList) "---\ntitle: Hi\n---\nBody".toList
        (some "go, rust".toList)).exitCode = 0 :=
  (c10_write_frame (some "p".toList) (some "k".toList) "---\ntitle: Hi\n---\nBody".toList
    (some "go, rust".toList)).2 (by decide)

theorem mem_of_mem_dropWhile (p : Char → Bool) (l : List Char) (x : Char)
    (h : x ∈ l.dropWhile p) : x ∈ l := by
  rw [← List.takeWhile_append_dropWhile p l]
  exact List.mem_append.mpr (Or.inr h)

theorem pyStrip_subset (s : List Char) (x : Char) (h : x ∈ pyStrip s) : x ∈ s := by
  unfold pyStrip at h
  rw [List.mem_reverse] at h
  have h2 := mem_of_mem_dropWhile isPySpace (s.dropWhile isPySpace).reverse x h
  rw [List.mem_reverse] at h2
  exact mem_of_mem_dropWhile isPySpace s x h2

theorem head_dropWhile_false (p : Char → Bool) : ∀ (l : List Char) (c : Char),
    (l.dropWhile p).head? = some c → p c = false
  | [], c, h => by simp [List.dropWhile] at h
  | a :: l, c, h => by
    by_cases ha : p a = true
    · rw [List.dropWhile_cons, if_pos ha] at h
      exact head_dropWhile_false p l c h
    · rw [List.dropWhile_cons, if_neg ha] at h
      simp only [List.head?_cons, Option.some.injEq] at h
      rw [← h]
      simpa using ha

theorem dropWhile_dropWhile (p : Char → Bool) : ∀ (l : List Char),
    (l.dropWhile p).dropWhile p = l.dropWhile p
  | [] => rfl
  | a :: l => by
    by_cases ha : p a = true
    · rw [List.dropWhile_cons, if_pos ha]
      exact dropWhile_dropWhile p l
    · rw [List.dropWhile_cons, if_neg ha, List.dropWhile_cons, if_neg ha]

theorem pyStrip_idem (s : List Char) : pyStrip (pyStrip s) = pyStrip s := by
  unfold pyStrip
  have hA : ((((s.dropWhile isPySpace).reverse.dropWhile isPySpace).reverse).dropWhile
      isPySpace) = ((s.dropWhile isPySpace).reverse.dropWhile isPySpace).reverse := by
    cases hu : ((s.dropWhile isPySpace).reverse.dropWhile isPySpace).reverse with
    | nil => simp
    | cons c u2 =>
      have hsplit := List.takeWhile_append_dropWhile isPySpace (s.dropWhile isPySpace).reverse
      have ht2 : s.dropWhile isPySpace =
          ((s.dropWhile isPySpace).reverse.dropWhile isPySpace).reverse ++
            ((s.dropWhile isPySpace).reverse.takeWhile isPySpace).reverse := by
        conv_lhs => rw [← List.reverse_reverse (s.dropWhile isPySpace), ← hsplit]
        rw [List.reverse_append]
      have hthead : (s.dropWhile isPySpace).head? = some c := by
        rw [ht2, hu]
        simp
      have hpc : isPySpace c = false := head_dropWhile_false isPySpace s c hthead
      rw [List.dropWhile_cons, if_neg (by simp [hpc])]
  rw [hA, List.reverse_reverse, dropWhile_dropWhile]

theorem removeQuotes_subset (u : List Char) (x : Char) (h : x ∈ removeQuotes u) : x ∈ u :=
  (List.mem_filter.mp h).1

theorem removeQuotes_no_quote (u : List Char) (x : Char) (h : x ∈ removeQuotes u) :
    ¬(x = '"') ∧ ¬(x = '\'') := by
  have := (List.mem_filter.mp h).2
  constructor <;> intro e <;> rw [e] at this <;> simp at this

theorem splitOnChar_cons_sep (sep : Char) (rest : List Char) :
    splitOnChar sep (sep :: rest) = [] :: splitOnChar sep rest := by
  rw [splitOnChar, if_pos rfl]

theorem splitOnChar_cons_ne (sep a : Char) (rest : List Char) (ha : ¬(a = sep))
    (h0 : List Char) (t0 : List (List Char)) (hsp : splitOnChar sep rest = h0 :: t0) :
    splitOnChar sep (a :: rest) = (a :: h0) :: t0 := by
  rw [splitOnChar, if_neg ha, hsp]

theorem mem_splitOnChar : ∀ (sep : Char) (l p : List Char),
    p ∈ splitOnChar sep l → sep ∉ p ∧ ∀ x ∈ p, x ∈ l
  | sep, [], p, h => by
    simp [splitOnChar] at h
    subst h
    exact ⟨by simp, by simp⟩
  | sep, a :: rest, p, h => by
    by_cases ha : a = sep
    · subst ha
      rw [splitOnChar_cons_sep] at h
      rcases List.mem_cons.mp h with h1 | h1
      · subst h1
        exact ⟨by simp, by simp⟩
      · obtain ⟨hs, hsub⟩ := mem_splitOnChar a rest p h1
        exact ⟨hs, fun x hx => by simp [hsub x hx]⟩
    · obtain ⟨h0, t0, hsp⟩ := List.exists_cons_of_ne_nil (splitOnChar_ne_nil sep rest)
      rw [splitOnChar_cons_ne sep a rest ha h0 t0 hsp] at h
      rcases List.mem_cons.mp h with h1 | h1
      · subst h1
        obtain ⟨hs, hsub⟩ := mem_splitOnChar sep rest h0 (by rw [hsp]; simp)
        constructor
        · intro hmem
          rcases List.mem_cons.mp hmem with e | e
          · exact ha e.symm
          · exact hs e
        · intro x hx
          rcases List.mem_cons.mp hx with e | e
          · simp [e]
          · simp [hsub x e]
      · obtain ⟨hs, hsub⟩ := mem_splitOnChar sep rest p (by rw [hsp]; simp [h1])
        exact ⟨hs, fun x hx => by simp [hsub x hx]⟩

theorem splitOnChar_filter (sep : Char) (q : Char → Bool) (hq : q sep = true) :
    ∀ (l : List Char),
    splitOnChar sep (l.filter q) = (splitOnChar sep l).map (fun s => s.filter q)
  | [] => by simp [splitOnChar]
  | a :: rest => by
    have ih := splitOnChar_filter sep q hq rest
    obtain ⟨h0, t0, hsp⟩ := List.exists_cons_of_ne_nil (splitOnChar_ne_nil sep rest)
    have hsp2 : splitOnChar sep (rest.filter q) =
        (h0.filter q) :: t0.map (fun s => s.filter q) := by
      rw [ih, hsp, List.map_cons]
    by_cases ha : a = sep
    · subst ha
      rw [List.filter_cons, if_pos hq, splitOnChar_cons_sep, splitOnChar_cons_sep, ih,
        List.map_cons]
      rfl
    · rw [List.filter_cons]
      by_cases hqa : q a = true
      · rw [if_pos hqa, splitOnChar_cons_ne sep a _ ha _ _ hsp2,
          splitOnChar_cons_ne sep a rest ha h0 t0 hsp, List.map_cons, List.filter_cons,
          if_pos hqa]
      · rw [if_neg hqa, splitOnChar_cons_ne sep a rest ha h0 t0 hsp, List.map_cons,
          List.filter_cons, if_neg hqa]
        exact hsp2

/-- C6: the parsed tag list equals the comma-split, quote-stripped, trimmed,
emptiness-filtered pieces of the response text (`specClean`); the result is
the failure value `none` exactly when that process yields no pieces (never
`some []`); and every returned tag is a non-empty, trimmed string containing
no quote character and no comma. -/
theorem c6_tag_parsing (t : List Char) :
    parseTags t = (if specClean t = [] then none else some (specClean t)) ∧
    (parseTags t = none ↔ specClean t = []) ∧
    ∀ l, parseTags t = some l → ¬(l = []) ∧ ∀ s ∈ l,
      ¬(s = []) ∧ pyStrip s = s ∧ '"' ∉ s ∧ '\'' ∉ s ∧ ',' ∉ s := by
  have hclean : ((splitOnChar ',' (removeQuotes (pyStrip t))).map pyStrip).filter
      (fun s => !s.isEmpty) = specClean t := by
    unfold specClean removeQuotes
    rw [splitOnChar_filter ',' (fun c => !(c == '"' || c == '\'')) (by decide) (pyStrip t),
      List.map_map]
    rfl
  have h1 : parseTags t = (if specClean t = [] then none else some (specClean t)) := by
    show (if (((splitOnChar ',' (removeQuotes (pyStrip t))).map pyStrip).filter
        (fun s => !s.isEmpty)).isEmpty then none
      else some (((splitOnChar ',' (removeQuotes (pyStrip t))).map pyStrip).filter
        (fun s => !s.isEmpty))) = _
    rw [hclean]
    by_cases h : specClean t = []
    · simp [h]
    · simp [h, List.isEmpty_iff]
  refine ⟨h1, by rw [h1]; by_cases h : specClean t = [] <;> simp [h], ?_⟩
  intro l hl
  rw [h1] at hl
  by_cases h : specClean t = []
  · rw [if_pos h] at hl
    exact absurd hl (by simp)
  · rw [if_neg h] at hl
    obtain rfl : specClean t = l := by simpa using hl
    refine ⟨h, ?_⟩
    intro s hs
    unfold specClean at hs
    obtain ⟨hmem, hne⟩ := List.mem_filter.mp hs
    obtain ⟨p, hp, hps⟩ := List.mem_map.mp hmem
    refine ⟨by simpa using hne, ?_, ?_, ?_, ?_⟩
    · rw [← hps, pyStrip_idem]
    · intro hq
      have h2 : '"' ∈ removeQuotes p := pyStrip_subset _ _ (by rw [hps]; exact hq)
      exact (removeQuotes_no_quote p '"' h2).1 rfl
    · intro hq
      have h2 : '\'' ∈ removeQuotes p := pyStrip_subset _ _ (by rw [hps]; exact hq)
      exact (removeQuotes_no_quote p '\'' h2).2 rfl
    · intro hq
      have h2 : ',' ∈ removeQuotes p := pyStrip_subset _ _ (by rw [hps]; exact hq)
      exact (mem_splitOnChar ',' (pyStrip t) p hp).1 (removeQuotes_subset p ',' h2)

theorem c6_tag_parsing_witness :
    ¬((["go".toList, "rust".toList] : List (List Char)) = []) ∧
    ∀ s ∈ [("go".toList : List Char), "rust".toList],
      ¬(s = []) ∧ pyStrip s = s ∧ '"' ∉ s ∧ '\'' ∉ s ∧ ',' ∉ s :=
  (c6_tag_parsing " \"go\", rust ,, ".toList).2.2 ["go".toList, "rust".toList] (by decide)
